import Mathlib

/-!
# Verification of the lyrics/MIDI-to-MusicXML core pipeline

Shallow embedding of the three core components of
`lirycs_midi_to_MusicXML.py`:

* `parse_midi` — the event extractor: a stateful scan over the tracks'
  messages that pairs note-on/note-off events into `Note` records
  (pitch, start in beats, duration in beats);
* `normalize_durations` — the duration quantizer: snaps each duration to
  the nearest member of a fixed canonical set;
* `sync_text_to_midi_advanced` — the lyric synchronizer: lays the words
  out uniformly over the total duration and borrows pitch/duration from a
  monotonically advancing note cursor.

Python floats are modelled by `ℚ`; Python exceptions (`ZeroDivisionError`
from `msg.time / ticks_per_beat`, `IndexError` from a list subscript) are
modelled by `Except`/`Option` results.
-/

namespace LyricsMidi

/-- A note record, as built by `parse_midi`:
`{'pitch': ..., 'start': ..., 'duration': ...}`. -/
structure Note where
  pitch : Nat
  start : ℚ
  duration : ℚ
deriving Repr, DecidableEq, Inhabited

/-- The MIDI messages `parse_midi` inspects.  `time` is the delta-tick
field `msg.time` carried by every mido message; messages other than
`set_tempo` / `note_on` / `note_off` fall through the `if`/`elif` chain
untouched (their delta time included), which `other` captures. -/
inductive MidiMsg where
  | set_tempo (tempo : Nat)
  | note_on (note velocity time : Nat)
  | note_off (note : Nat) (time : Nat)
  | other (time : Nat)
deriving Repr, DecidableEq

/-- The only Python exception the extractor loop can raise:
`msg.time / ticks_per_beat` with a zero `ticks_per_beat`. -/
inductive PyErr where
  | zeroDivisionError
deriving Repr, DecidableEq

/-- `mido.tempo2bpm`: microseconds-per-beat to beats-per-minute. -/
def tempo2bpm (tempo : Nat) : ℚ := 60000000 / (tempo : ℚ)

/-- `min_duration = 1/64  # Minimalna długość w beatach`. -/
def min_duration : ℚ := 1/64

/-- The mutable locals of `parse_midi`'s scan: the accumulated note list,
the running `current_time` (beats) and the last seen tempo (bpm). -/
structure ParseState where
  notes : List Note
  current_time : ℚ
  tempo : ℚ
deriving Repr, DecidableEq

/-- One step of `for note in reversed(notes): ...` *after* the reversal:
walk the reversed list and close the first open note (`duration == 0`)
with the matching pitch, then stop (`break`). -/
def closeFirstOpen (p : Nat) (ct : ℚ) : List Note → List Note
  | [] => []
  | n :: rest =>
      if n.pitch = p ∧ n.duration = 0 then
        { n with duration := max (ct - n.start) min_duration } :: rest
      else
        n :: closeFirstOpen p ct rest

/-- `for note in reversed(notes): if note['pitch'] == msg.note and
note['duration'] == 0: note['duration'] = max(current_time -
note['start'], min_duration); break` — close the most-recently-opened
open note with the given pitch, if any. -/
def closeMostRecent (notes : List Note) (p : Nat) (ct : ℚ) : List Note :=
  (closeFirstOpen p ct notes.reverse).reverse

/-- The body of the extractor's message loop.  `set_tempo` only updates
the reported tempo; `note_on`/`note_off` first advance `current_time` by
`max(msg.time / ticks_per_beat, min_duration)` (a `ZeroDivisionError`
when `ticks_per_beat == 0`), then either open a new note
(`note_on` with positive velocity) or close the most recent open note of
that pitch (`note_off`, or `note_on` with velocity zero). -/
def step (tpb : Int) (s : ParseState) (m : MidiMsg) : Except PyErr ParseState :=
  match m with
  | .set_tempo t => .ok { s with tempo := tempo2bpm t }
  | .note_on p v dt =>
      if tpb = 0 then .error .zeroDivisionError
      else
        let ct := s.current_time + max ((dt : ℚ) / (tpb : ℚ)) min_duration
        if 0 < v then
          .ok { notes := s.notes ++ [{ pitch := p, start := ct, duration := 0 }],
                current_time := ct, tempo := s.tempo }
        else
          .ok { notes := closeMostRecent s.notes p ct,
                current_time := ct, tempo := s.tempo }
  | .note_off p dt =>
      if tpb = 0 then .error .zeroDivisionError
      else
        let ct := s.current_time + max ((dt : ℚ) / (tpb : ℚ)) min_duration
        .ok { notes := closeMostRecent s.notes p ct,
              current_time := ct, tempo := s.tempo }
  | .other _ => .ok s

/-- `for msg in track: ...` with Python exception propagation. -/
def processMsgs (tpb : Int) : ParseState → List MidiMsg → Except PyErr ParseState
  | s, [] => .ok s
  | s, m :: ms =>
      match step tpb s m with
      | .error e => .error e
      | .ok s' => processMsgs tpb s' ms

/-- `for track in midi.tracks: for msg in track: ...` — the state
(`notes`, `current_time`, `tempo`) is threaded across tracks, never
reset. -/
def processTracks (tpb : Int) : ParseState → List (List MidiMsg) → Except PyErr ParseState
  | s, [] => .ok s
  | s, t :: ts =>
      match processMsgs tpb s t with
      | .error e => .error e
      | .ok s' => processTracks tpb s' ts

/-- The extractor's scan from its initial state
(`notes = []`, `current_time = 0`, `tempo = 120`). -/
def parse_midi_events (tracks : List (List MidiMsg)) (tpb : Int) :
    Except PyErr ParseState :=
  processTracks tpb { notes := [], current_time := 0, tempo := 120 } tracks

/-- `valid_durations = [1, 1/2, 1/4, 1/8, 1/16, 1/32, 1/64, 1/128, 1/256]`. -/
def valid_durations : List ℚ := [1, 1/2, 1/4, 1/8, 1/16, 1/32, 1/64, 1/128, 1/256]

/-- One comparison of Python's `min(xs, key=lambda x: abs(x - d))`: a
later candidate replaces the running best only on a *strictly* smaller
key, so ties keep the earlier element. -/
def pyMinStep (d best c : ℚ) : ℚ := if |c - d| < |best - d| then c else best

/-- Python's `min(xs, key=lambda x: abs(x - d))`: the *first* element of
`xs` attaining the minimal key.  The `[]` case is unreachable here
(`valid_durations` is non-empty; Python would raise `ValueError`). -/
def pyMinAbs (d : ℚ) : List ℚ → ℚ
  | [] => 0
  | x :: xs => xs.foldl (pyMinStep d) x

/-- The per-note body of `normalize_durations`: snap to the nearest valid
duration, then the defensive clamp `if note['duration'] < 1/256:
note['duration'] = 1/256`. -/
def quantizeDuration (d : ℚ) : ℚ :=
  let v := pyMinAbs d valid_durations
  if v < 1/256 then 1/256 else v

/-- `normalize_durations(notes)`: replace each note's duration with the
nearest member of `valid_durations` (clamped below at `1/256`);
pitch and start are untouched and the list order is kept. -/
def normalize_durations (notes : List Note) : List Note :=
  notes.map fun n => { n with duration := quantizeDuration n.duration }

/-- `parse_midi`: run the scan over all tracks, then return
`(normalize_durations(notes), tempo, ticks_per_beat)`. -/
def parse_midi (tracks : List (List MidiMsg)) (tpb : Int) :
    Except PyErr (List Note × ℚ × Int) :=
  (parse_midi_events tracks tpb).map fun s =>
    (normalize_durations s.notes, s.tempo, tpb)

/-- `note['start'] + note['duration']` — when a note ends. -/
def noteEnd (n : Note) : ℚ := n.start + n.duration

/-- An entry of the synchronizer's output:
`{'pitch': ..., 'start': ..., 'duration': ..., 'word': ...}`. -/
structure SyncedEntry where
  pitch : Nat
  start : ℚ
  duration : ℚ
  word : String
deriving Repr, DecidableEq, Inhabited

/-- `max(note['start'] + note['duration'] for note in notes)` —
Python's `max` over a non-empty iterable (the `[]` case is unreachable
behind the emptiness guard). -/
def total_midi_duration : List Note → ℚ
  | [] => 0
  | n :: rest => rest.foldl (fun a m => max a (noteEnd m)) (noteEnd n)

/-- The synchronizer's inner `while` loop:
`while note_index < len(notes) - 1 and notes[note_index]['start'] +
notes[note_index]['duration'] < word_start: note_index += 1`.
The guard's subscript is in bounds whenever taken
(`idx < notes.length - 1`), so `getD` is faithful there. -/
def advanceIndex (notes : List Note) (wordStart : ℚ) (idx : Nat) : Nat :=
  if h : idx < notes.length - 1 ∧ noteEnd (notes.getD idx default) < wordStart then
    advanceIndex notes wordStart (idx + 1)
  else idx
termination_by notes.length - idx
decreasing_by
  exact Nat.sub_lt_sub_left (Nat.lt_of_lt_of_le h.1 (Nat.sub_le _ _)) (Nat.lt_succ_self idx)

/-- The synchronizer's `for i, word in enumerate(words)` loop, carrying
the word position `i` and the shared cursor `note_index`.  The
unguarded subscript `note = notes[note_index]` is modelled by `get?`
(`none` = Python `IndexError`). -/
def syncLoop (notes : List Note) (interval : ℚ) :
    Nat → Nat → List String → Option (List SyncedEntry)
  | _, _, [] => some []
  | i, idx, w :: ws =>
      let wordStart := (i : ℚ) * interval
      let idx' := advanceIndex notes wordStart idx
      match notes.get? idx' with
      | none => none
      | some n =>
          (syncLoop notes interval (i + 1) idx' ws).map fun es =>
            { pitch := n.pitch, start := wordStart, duration := n.duration,
              word := w } :: es

/-- `sync_text_to_midi_advanced(notes, text)` after the tokenization
`words = text.split()`: empty inputs short-circuit to `[]`, otherwise the
words are laid out at multiples of
`word_interval = total_midi_duration / len(words)`. -/
def sync_text_to_midi_advanced (notes : List Note) (words : List String) :
    Option (List SyncedEntry) :=
  if words = [] ∨ notes = [] then some []
  else
    let total := total_midi_duration notes
    let word_interval := total / (words.length : ℚ)
    syncLoop notes word_interval 0 0 words

/-- Python's `text.split()`: split on whitespace runs, dropping empty
tokens — the tokenizer applied before the synchronizer's loop. -/
def pySplit (text : String) : List String :=
  (text.split Char.isWhitespace).filter (· ≠ "")

/-- The scan invariant: every recorded start is bounded by the running
clock, and consecutive recorded starts are at least `min_duration`
apart (in list order). -/
def timeInv (s : ParseState) : Prop :=
  (∀ n ∈ s.notes, n.start ≤ s.current_time) ∧
    List.Chain' (fun a b => a.start + min_duration ≤ b.start) s.notes

/-! ## Quantizer lemmas -/

/-- Full characterization of the `min(..., key=abs(x - d))` fold: the
result is a member of the candidates, its key is minimal, and every
candidate listed *before* it has a strictly larger key (Python's `min`
returns the first minimizer). -/
lemma foldl_pyMinStep_spec (d : ℚ) (xs : List ℚ) :
    ∀ (x0 r : ℚ), r = xs.foldl (pyMinStep d) x0 →
      r ∈ x0 :: xs ∧ (∀ c ∈ x0 :: xs, |r - d| ≤ |c - d|) ∧
        ∃ l1 l2, x0 :: xs = l1 ++ r :: l2 ∧ ∀ c ∈ l1, |r - d| < |c - d| := by
  induction xs with
  | nil =>
    intro x0 r hr
    subst hr
    exact ⟨by simp, by simp, [], [], by simp, by simp⟩
  | cons c rest ih =>
    intro x0 r hr
    rw [List.foldl_cons] at hr
    by_cases hc : |c - d| < |x0 - d|
    · have hr' : r = rest.foldl (pyMinStep d) c := by
        rwa [show pyMinStep d x0 c = c by simp [pyMinStep, hc]] at hr
      obtain ⟨hmem, hle, l1, l2, hdec, hstrict⟩ := ih c r hr'
      have hrc : |r - d| ≤ |c - d| := hle c (by simp)
      refine ⟨?_, ?_, x0 :: l1, l2, ?_, ?_⟩
      · rcases List.mem_cons.1 hmem with h | h
        · simp [h]
        · simp [List.mem_cons, Or.inr (Or.inr h)]
      · intro e he
        rcases List.mem_cons.1 he with h | h
        · exact h ▸ le_of_lt (lt_of_le_of_lt hrc hc)
        · exact hle e h
      · simpa using congrArg (x0 :: ·) hdec
      · intro e he
        rcases List.mem_cons.1 he with h | h
        · exact h ▸ lt_of_le_of_lt hrc hc
        · exact hstrict e h
    · have hr' : r = rest.foldl (pyMinStep d) x0 := by
        rwa [show pyMinStep d x0 c = x0 by simp [pyMinStep, hc]] at hr
      obtain ⟨hmem, hle, l1, l2, hdec, hstrict⟩ := ih x0 r hr'
      have hx0c : |x0 - d| ≤ |c - d| := not_lt.1 hc
      have hle' : ∀ e ∈ x0 :: c :: rest, |r - d| ≤ |e - d| := by
        intro e he
        rcases List.mem_cons.1 he with h | h
        · exact hle e (h ▸ List.mem_cons_self _ _)
        · rcases List.mem_cons.1 h with h' | h'
          · exact h' ▸ le_trans (hle x0 (List.mem_cons_self _ _)) hx0c
          · exact hle e (List.mem_cons.2 (Or.inr h'))
      refine ⟨?_, hle', ?_⟩
      · rcases List.mem_cons.1 hmem with h | h
        · simp [h]
        · simp [List.mem_cons, Or.inr (Or.inr h)]
      · cases l1 with
        | nil =>
          have hx : x0 = r := by simpa using congrArg List.head? hdec
          exact ⟨[], c :: rest, by simp [hx], by simp⟩
        | cons a l1' =>
          obtain ⟨ha1, ha2⟩ : a = x0 ∧ rest = l1' ++ r :: l2 := by
            have h := hdec
            rw [List.cons_append] at h
            injection h with h1 h2
            exact ⟨h1.symm, h2⟩
          have hrx0 : |r - d| < |x0 - d| := by
            have := hstrict a (List.mem_cons_self _ _)
            rwa [ha1] at this
          refine ⟨x0 :: c :: l1', l2, ?_, ?_⟩
          · simp [ha2]
          · intro e he
            rcases List.mem_cons.1 he with h | h
            · exact h ▸ hrx0
            · rcases List.mem_cons.1 h with h' | h'
              · exact h' ▸ lt_of_lt_of_le hrx0 hx0c
              · exact hstrict e (ha1 ▸ List.mem_cons.2 (Or.inr h'))

/-- Every canonical duration is at least `1/256`. -/
lemma valid_durations_lb : ∀ v ∈ valid_durations, (1/256 : ℚ) ≤ v := by
  intro v hv
  fin_cases hv <;> norm_num

/-- `pyMinAbs` on a non-empty candidate list, characterized. -/
lemma pyMinAbs_cons_spec (d x : ℚ) (xs : List ℚ) :
    pyMinAbs d (x :: xs) ∈ x :: xs ∧
      (∀ c ∈ x :: xs, |pyMinAbs d (x :: xs) - d| ≤ |c - d|) ∧
      ∃ l1 l2, x :: xs = l1 ++ pyMinAbs d (x :: xs) :: l2 ∧
        ∀ c ∈ l1, |pyMinAbs d (x :: xs) - d| < |c - d| := by
  have h := foldl_pyMinStep_spec d xs x (xs.foldl (pyMinStep d) x) rfl
  simpa [pyMinAbs] using h

/-- The `pyMinAbs` result over the canonical set, characterized. -/
lemma pyMinAbs_valid_spec (d : ℚ) :
    pyMinAbs d valid_durations ∈ valid_durations ∧
      (∀ c ∈ valid_durations, |pyMinAbs d valid_durations - d| ≤ |c - d|) ∧
      ∃ l1 l2, valid_durations = l1 ++ pyMinAbs d valid_durations :: l2 ∧
        ∀ c ∈ l1, |pyMinAbs d valid_durations - d| < |c - d| :=
  pyMinAbs_cons_spec d 1 [1/2, 1/4, 1/8, 1/16, 1/32, 1/64, 1/128, 1/256]

/-- The defensive clamp `if v < 1/256: v = 1/256` never fires, since the
chosen value is a member of the canonical set. -/
lemma quantizeDuration_eq_pyMinAbs (d : ℚ) :
    quantizeDuration d = pyMinAbs d valid_durations := by
  have hmem := (pyMinAbs_valid_spec d).1
  have hlb := valid_durations_lb _ hmem
  simp only [quantizeDuration]
  rw [if_neg (not_lt.2 hlb)]

/-- The quantized value belongs to the canonical set. -/
lemma quantizeDuration_mem (d : ℚ) : quantizeDuration d ∈ valid_durations := by
  rw [quantizeDuration_eq_pyMinAbs]
  exact (pyMinAbs_valid_spec d).1

/-- Quantizing a value already in the canonical set returns it: its own
distance is `0`, and the nearest-value law forces the result to it. -/
lemma quantizeDuration_fix : ∀ c ∈ valid_durations, quantizeDuration c = c := by
  intro c hc
  have h := (pyMinAbs_valid_spec c).2.1 c hc
  rw [quantizeDuration_eq_pyMinAbs]
  have h0 : |pyMinAbs c valid_durations - c| ≤ 0 := by simpa using h
  have := le_antisymm h0 (abs_nonneg _)
  exact sub_eq_zero.1 (abs_eq_zero.1 this)

/-- `quantizeDuration` is idempotent. -/
lemma quantizeDuration_idem (d : ℚ) :
    quantizeDuration (quantizeDuration d) = quantizeDuration d :=
  quantizeDuration_fix _ (quantizeDuration_mem d)

/-! ## Claim theorems: quantizer -/

/-- C4: for every input duration `d`, the quantizer returns a value `v`
in the canonical set `{1, 1/2, ..., 1/256}`, with `|v - d| ≤ |c - d|` for
every canonical `c`; exact ties are broken toward the first value
encountered in the canonical set (every earlier candidate is strictly
farther); and the result is never below the `1/256` clamp. -/
theorem C4_quantizer_nearest (d : ℚ) :
    quantizeDuration d ∈ valid_durations ∧
      (∀ c ∈ valid_durations, |quantizeDuration d - d| ≤ |c - d|) ∧
      (∃ l1 l2, valid_durations = l1 ++ quantizeDuration d :: l2 ∧
        ∀ c ∈ l1, |quantizeDuration d - d| < |c - d|) ∧
      1/256 ≤ quantizeDuration d := by
  have h := pyMinAbs_valid_spec d
  rw [← quantizeDuration_eq_pyMinAbs] at h
  exact ⟨h.1, h.2.1, h.2.2, valid_durations_lb _ h.1⟩

/-- Witness for C4 at `d = 3/8` (an exact tie between `1/2` and `1/4`,
broken toward `1/2`, the earlier canonical value). -/
theorem C4_quantizer_nearest_witness :
    quantizeDuration (3/8) = 1/2 ∧ quantizeDuration (3/8) ∈ valid_durations ∧
      |quantizeDuration (3/8) - 3/8| ≤ |(1/4 : ℚ) - 3/8| :=
  ⟨by norm_num [quantizeDuration, pyMinAbs, valid_durations, pyMinStep,
      abs_of_nonneg, abs_of_nonpos],
    (C4_quantizer_nearest (3/8)).1,
    (C4_quantizer_nearest (3/8)).2.1 (1/4) (by norm_num [valid_durations])⟩

/-- C7: quantization is idempotent — re-quantizing the single note
produced by `normalize_durations [n]` changes nothing. -/
theorem C7_quantize_idempotent (n : Note) :
    normalize_durations [(normalize_durations [n]).getD 0 default] =
      normalize_durations [n] := by
  simp [normalize_durations, quantizeDuration_idem]

/-- C8: the quantizer preserves the length and order of the note list and
touches only the `duration` field — every output note's pitch and start
equal the corresponding input note's. -/
theorem C8_quantizer_frame (notes : List Note) :
    (normalize_durations notes).length = notes.length ∧
      (normalize_durations notes).map Note.pitch = notes.map Note.pitch ∧
      (normalize_durations notes).map Note.start = notes.map Note.start := by
  refine ⟨by simp [normalize_durations], ?_, ?_⟩ <;>
    · induction notes with
      | nil => simp [normalize_durations]
      | cons n ns ih => simp [normalize_durations]

/-! ## Extractor lemmas -/

/-- If no note in the list is open with the given pitch, the reversed
scan changes nothing. -/
lemma closeFirstOpen_of_none (p : Nat) (ct : ℚ) :
    ∀ l : List Note, (∀ m ∈ l, ¬(m.pitch = p ∧ m.duration = 0)) →
      closeFirstOpen p ct l = l := by
  intro l
  induction l with
  | nil => intro _; rfl
  | cons n rest ih =>
    intro h
    simp only [closeFirstOpen, if_neg (h n (List.mem_cons_self _ _))]
    rw [ih fun m hm => h m (List.mem_cons.2 (Or.inr hm))]

/-- The reversed scan walks past a match-free prefix untouched. -/
lemma closeFirstOpen_append_of_none (p : Nat) (ct : ℚ) :
    ∀ (pre rest : List Note), (∀ m ∈ pre, ¬(m.pitch = p ∧ m.duration = 0)) →
      closeFirstOpen p ct (pre ++ rest) = pre ++ closeFirstOpen p ct rest := by
  intro pre
  induction pre with
  | nil => simp
  | cons n pre' ih =>
    intro rest h
    rw [List.cons_append]
    simp only [closeFirstOpen, if_neg (h n (List.mem_cons_self _ _))]
    rw [ih rest fun m hm => h m (List.mem_cons.2 (Or.inr hm)), List.cons_append]

/-- Closing a note never changes the list of start times. -/
lemma closeFirstOpen_map_start (p : Nat) (ct : ℚ) :
    ∀ l : List Note, (closeFirstOpen p ct l).map Note.start = l.map Note.start := by
  intro l
  induction l with
  | nil => rfl
  | cons n rest ih =>
    by_cases h : n.pitch = p ∧ n.duration = 0
    · simp [closeFirstOpen, h]
    · simp [closeFirstOpen, h, ih]

/-- `closeMostRecent` preserves the start times (and hence the length
and order) of the note list; only one duration may change. -/
lemma closeMostRecent_map_start (notes : List Note) (p : Nat) (ct : ℚ) :
    (closeMostRecent notes p ct).map Note.start = notes.map Note.start := by
  simp [closeMostRecent, List.map_reverse, closeFirstOpen_map_start]

/-! ## Claim theorems: extractor -/

set_option maxHeartbeats 1000000 in
/-- C2: an off-event closes exactly the most-recently-opened open note of
its pitch, setting its duration to `max(current_time - start,
min_duration)`; an off-event with no matching open note leaves the list
unchanged; and on the spec's re-trigger scenario (ticks `0,0,10,10`,
`ticks_per_beat = 10`) the first `note_off` closes the **second**
`note_on`, yielding two notes with distinct, correctly nested spans. -/
theorem C2_lifo_close :
    (∀ (l1 l2 : List Note) (n : Note) (p : Nat) (ct : ℚ),
        n.pitch = p → n.duration = 0 →
        (∀ m ∈ l2, ¬(m.pitch = p ∧ m.duration = 0)) →
        closeMostRecent (l1 ++ n :: l2) p ct =
          l1 ++ { n with duration := max (ct - n.start) min_duration } :: l2) ∧
    (∀ (notes : List Note) (p : Nat) (ct : ℚ),
        (∀ m ∈ notes, ¬(m.pitch = p ∧ m.duration = 0)) →
        closeMostRecent notes p ct = notes) ∧
    (parse_midi_events [[.note_on 60 64 0, .note_on 60 64 0, .note_off 60 10]] 10 =
        .ok ⟨[⟨60, 1/64, 0⟩, ⟨60, 1/32, 1⟩], 33/32, 120⟩ ∧
      parse_midi_events
          [[.note_on 60 64 0, .note_on 60 64 0, .note_off 60 10, .note_off 60 10]] 10 =
        .ok ⟨[⟨60, 1/64, 129/64⟩, ⟨60, 1/32, 1⟩], 65/32, 120⟩ ∧
      (129/64 : ℚ) ≠ 1 ∧ (1/64 : ℚ) < 1/32 ∧ (1/32 : ℚ) + 1 < 1/64 + 129/64) := by
  refine ⟨?_, ?_, ?_⟩
  · intro l1 l2 n p ct hp hd hl2
    unfold closeMostRecent
    have hrev : (l1 ++ n :: l2).reverse = l2.reverse ++ n :: l1.reverse := by simp
    rw [hrev,
      closeFirstOpen_append_of_none p ct l2.reverse (n :: l1.reverse)
        fun m hm => hl2 m (List.mem_reverse.1 hm)]
    simp [closeFirstOpen, hp, hd]
  · intro notes p ct h
    unfold closeMostRecent
    rw [closeFirstOpen_of_none p ct notes.reverse fun m hm => h m (List.mem_reverse.1 hm),
      List.reverse_reverse]
  · have h1 : step 10 ⟨[], 0, 120⟩ (.note_on 60 64 0) =
        .ok ⟨[⟨60, 1/64, 0⟩], 1/64, 120⟩ := by
      norm_num [step, min_duration, max_def]
    have h2 : step 10 ⟨[⟨60, 1/64, 0⟩], 1/64, 120⟩ (.note_on 60 64 0) =
        .ok ⟨[⟨60, 1/64, 0⟩, ⟨60, 1/32, 0⟩], 1/32, 120⟩ := by
      norm_num [step, min_duration, max_def]
    have h3 : step 10 ⟨[⟨60, 1/64, 0⟩, ⟨60, 1/32, 0⟩], 1/32, 120⟩ (.note_off 60 10) =
        .ok ⟨[⟨60, 1/64, 0⟩, ⟨60, 1/32, 1⟩], 33/32, 120⟩ := by
      norm_num [step, min_duration, max_def, closeMostRecent, closeFirstOpen]
    have h4 : step 10 ⟨[⟨60, 1/64, 0⟩, ⟨60, 1/32, 1⟩], 33/32, 120⟩ (.note_off 60 10) =
        .ok ⟨[⟨60, 1/64, 129/64⟩, ⟨60, 1/32, 1⟩], 65/32, 120⟩ := by
      norm_num [step, min_duration, max_def, closeMostRecent, closeFirstOpen]
    refine ⟨?_, ?_, by norm_num⟩
    · simp only [parse_midi_events, processTracks, processMsgs, h1, h2, h3]
    · simp only [parse_midi_events, processTracks, processMsgs, h1, h2, h3, h4]

/-- Witness for C2: a concrete close (most recent open note of pitch 60)
and a concrete no-op close (no open note of pitch 60). -/
theorem C2_lifo_close_witness :
    closeMostRecent [⟨61, 0, 0⟩, ⟨60, 1/2, 0⟩] 60 1 =
        [⟨61, 0, 0⟩, ⟨60, 1/2, max ((1 : ℚ) - 1/2) min_duration⟩] ∧
      closeMostRecent [⟨61, 0, 0⟩] 60 1 = [⟨61, 0, 0⟩] :=
  ⟨C2_lifo_close.1 [⟨61, 0, 0⟩] [] ⟨60, 1/2, 0⟩ 60 1 rfl rfl (by simp),
    C2_lifo_close.2.1 [⟨61, 0, 0⟩] 60 1 (by norm_num)⟩

/-- C3: every `note_on`/`note_off` advances `current_time` by exactly
`max(delta_ticks / ticks_per_beat, 1/64)`, hence by at least `1/64` even
when `delta_ticks = 0`; `set_tempo` and other messages leave
`current_time` unchanged, so consecutive timed events always carry
timestamps at least `1/64` beat apart. -/
theorem C3_min_step_floor (tpb : Int) (s : ParseState) (p v dt : Nat)
    (htpb : tpb ≠ 0) :
    (∃ s', step tpb s (.note_on p v dt) = .ok s' ∧
        s'.current_time = s.current_time + max ((dt : ℚ) / (tpb : ℚ)) min_duration ∧
        s.current_time + 1/64 ≤ s'.current_time) ∧
    (∃ s', step tpb s (.note_off p dt) = .ok s' ∧
        s'.current_time = s.current_time + max ((dt : ℚ) / (tpb : ℚ)) min_duration ∧
        s.current_time + 1/64 ≤ s'.current_time) ∧
    (∀ t, ∃ s', step tpb s (.set_tempo t) = .ok s' ∧
        s'.current_time = s.current_time) ∧
    (∀ dt', step tpb s (.other dt') = .ok s) := by
  have hmax : s.current_time + 1/64 ≤
      s.current_time + max ((dt : ℚ) / (tpb : ℚ)) min_duration := by
    have h := le_max_right ((dt : ℚ) / (tpb : ℚ)) min_duration
    have h64 : min_duration = (1/64 : ℚ) := rfl
    linarith
  refine ⟨?_, ?_, ?_, ?_⟩
  · by_cases hv : 0 < v
    · refine ⟨⟨s.notes ++
          [⟨p, s.current_time + max ((dt : ℚ) / (tpb : ℚ)) min_duration, 0⟩],
          s.current_time + max ((dt : ℚ) / (tpb : ℚ)) min_duration, s.tempo⟩,
        ?_, rfl, hmax⟩
      simp [step, htpb, hv]
    · refine ⟨⟨closeMostRecent s.notes p
            (s.current_time + max ((dt : ℚ) / (tpb : ℚ)) min_duration),
          s.current_time + max ((dt : ℚ) / (tpb : ℚ)) min_duration, s.tempo⟩,
        ?_, rfl, hmax⟩
      simp [step, htpb, hv]
  · refine ⟨⟨closeMostRecent s.notes p
          (s.current_time + max ((dt : ℚ) / (tpb : ℚ)) min_duration),
        s.current_time + max ((dt : ℚ) / (tpb : ℚ)) min_duration, s.tempo⟩,
      ?_, rfl, hmax⟩
    simp [step, htpb]
  · intro t
    exact ⟨⟨s.notes, s.current_time, tempo2bpm t⟩, by simp [step], rfl⟩
  · intro dt'
    simp [step]

/-- Witness for C3 at `tpb = 10`, the initial state, and `dt = 0`
(the zero-delta case the floor is about). -/
theorem C3_min_step_floor_witness :
    (∃ s', step 10 ⟨[], 0, 120⟩ (.note_on 60 64 0) = .ok s' ∧
        (0 : ℚ) + 1/64 ≤ s'.current_time) ∧
    (∃ s', step 10 ⟨[], 0, 120⟩ (.note_off 60 0) = .ok s' ∧
        (0 : ℚ) + 1/64 ≤ s'.current_time) := by
  have h := C3_min_step_floor 10 ⟨[], 0, 120⟩ 60 64 0 (by norm_num)
  obtain ⟨⟨s1, hs1, _, hle1⟩, ⟨s2, hs2, _, hle2⟩, _, _⟩ := h
  exact ⟨⟨s1, hs1, hle1⟩, ⟨s2, hs2, hle2⟩⟩

set_option maxHeartbeats 1000000 in
/-- C1 behavior at the failing inputs: with `ticks_per_beat = 0` and one
timed message the extractor raises `ZeroDivisionError` (there is no
`MalformedTimeBase` guard in the code), and with `ticks_per_beat = -1`
it does not fail at all — it silently returns a note list. -/
theorem C1_timebase_divergence :
    parse_midi [[.note_on 60 64 0]] 0 = .error .zeroDivisionError ∧
      parse_midi [[.note_on 60 64 0]] (-1) =
        .ok ([⟨60, 1/64, 1/256⟩], 120, -1) := by
  constructor
  · have he : parse_midi_events [[.note_on 60 64 0]] 0 = .error .zeroDivisionError := by
      have h1 : step 0 ⟨[], 0, 120⟩ (.note_on 60 64 0) = .error .zeroDivisionError := by
        simp [step]
      simp only [parse_midi_events, processTracks, processMsgs, h1]
    rw [parse_midi, he]
    rfl
  · have h : parse_midi_events [[.note_on 60 64 0]] (-1) =
        .ok ⟨[⟨60, 1/64, 0⟩], 1/64, 120⟩ := by
      norm_num [parse_midi_events, processTracks, processMsgs, step, min_duration, max_def]
    rw [parse_midi, h]
    have hq : quantizeDuration 0 = 1/256 := by
      norm_num [quantizeDuration, pyMinAbs, valid_durations, pyMinStep,
        abs_of_nonneg, abs_of_nonpos]
    simp only [Except.map, normalize_durations, List.map_cons, List.map_nil, hq]

/-! ## Synchronizer lemmas -/

/-- The `while` cursor never moves backward, and never moves past
`len(notes) - 1` (the guard's bound): fuel-indexed induction on the
remaining distance. -/
lemma advanceIndex_bounds (notes : List Note) (w : ℚ) :
    ∀ (k idx : Nat), notes.length - idx ≤ k →
      idx ≤ advanceIndex notes w idx ∧
        advanceIndex notes w idx ≤ max idx (notes.length - 1) := by
  intro k
  induction k with
  | zero =>
    intro idx hk
    rw [advanceIndex, dif_neg fun hcon => absurd hcon.1 (by omega)]
    exact ⟨le_refl idx, Nat.le_max_left _ _⟩
  | succ k ih =>
    intro idx hk
    rw [advanceIndex]
    by_cases h : idx < notes.length - 1 ∧ noteEnd (notes.getD idx default) < w
    · rw [dif_pos h]
      obtain ⟨h1, h2⟩ := ih (idx + 1) (by omega)
      refine ⟨le_trans (Nat.le_succ idx) h1, ?_⟩
      rw [Nat.max_eq_right (by omega : idx + 1 ≤ notes.length - 1)] at h2
      exact le_trans h2 (Nat.le_max_right _ _)
    · rw [dif_neg h]
      exact ⟨le_refl idx, Nat.le_max_left _ _⟩

/-- The cursor only increments. -/
lemma advanceIndex_ge (notes : List Note) (w : ℚ) (idx : Nat) :
    idx ≤ advanceIndex notes w idx :=
  (advanceIndex_bounds notes w (notes.length - idx) idx le_rfl).1

/-- From a position within `[0, len - 1]` the cursor stays within it. -/
lemma advanceIndex_le_sub_one (notes : List Note) (w : ℚ) (idx : Nat)
    (h : idx ≤ notes.length - 1) :
    advanceIndex notes w idx ≤ notes.length - 1 := by
  have h2 := (advanceIndex_bounds notes w (notes.length - idx) idx le_rfl).2
  rwa [Nat.max_eq_right h] at h2

/-- On a non-empty note list the cursor stays a valid index. -/
lemma advanceIndex_lt_length (notes : List Note) (w : ℚ) (idx : Nat)
    (hne : notes ≠ []) (h : idx ≤ notes.length - 1) :
    advanceIndex notes w idx < notes.length := by
  have h1 := advanceIndex_le_sub_one notes w idx h
  have h2 : 0 < notes.length := List.length_pos.2 hne
  omega

/-- The word loop, fully characterized: from any in-range cursor it
returns `some` (no `IndexError`), one entry per word, and the entry for
the `k`-th remaining word starts at `(i + k) * interval`. -/
lemma syncLoop_spec (notes : List Note) (hne : notes ≠ []) (interval : ℚ) :
    ∀ (ws : List String) (i idx : Nat), idx ≤ notes.length - 1 →
      ∃ es, syncLoop notes interval i idx ws = some es ∧
        es.length = ws.length ∧
        ∀ k (hk : k < es.length),
          (es.get ⟨k, hk⟩).start = ((i + k : Nat) : ℚ) * interval := by
  intro ws
  induction ws with
  | nil =>
    intro i idx _
    exact ⟨[], rfl, rfl, fun k hk => absurd hk (by simp)⟩
  | cons word ws' ih =>
    intro i idx hidx
    have hlt := advanceIndex_lt_length notes ((i : ℚ) * interval) idx hne hidx
    have hidx' := advanceIndex_le_sub_one notes ((i : ℚ) * interval) idx hidx
    obtain ⟨es, hes, hlen, hstart⟩ :=
      ih (i + 1) (advanceIndex notes ((i : ℚ) * interval) idx) hidx'
    refine ⟨⟨(notes.get ⟨_, hlt⟩).pitch, (i : ℚ) * interval,
        (notes.get ⟨_, hlt⟩).duration, word⟩ :: es, ?_, by simp [hlen], ?_⟩
    · simp only [syncLoop, List.get?_eq_get hlt, hes, Option.map_some']
    · intro k hk
      cases k with
      | zero => simp
      | succ k' =>
        have hk' : k' < es.length := by simpa using hk
        have h := hstart k' hk'
        simp only [List.get_cons_succ]
        rw [h, show i + 1 + k' = i + (k' + 1) by omega]

/-! ## Claim theorems: synchronizer -/

/-- C5: with non-empty notes and words the synchronizer emits exactly one
entry per word, in word order; with either input empty it returns the
empty sequence without error. -/
theorem C5_sync_word_count (notes : List Note) (words : List String) :
    ((notes = [] ∨ words = []) →
        sync_text_to_midi_advanced notes words = some []) ∧
    (notes ≠ [] → ∃ es, sync_text_to_midi_advanced notes words = some es ∧
        es.length = words.length) := by
  constructor
  · intro h
    have h' : words = [] ∨ notes = [] := h.elim (fun hn => Or.inr hn) (fun hw => Or.inl hw)
    simp [sync_text_to_midi_advanced, if_pos h']
  · intro hne
    by_cases hw : words = []
    · subst hw
      exact ⟨[], by simp [sync_text_to_midi_advanced], rfl⟩
    · obtain ⟨es, hes, hlen, _⟩ :=
        syncLoop_spec notes hne (total_midi_duration notes / (words.length : ℚ))
          words 0 0 (Nat.zero_le _)
      refine ⟨es, ?_, hlen⟩
      simp only [sync_text_to_midi_advanced]
      rw [if_neg fun h => h.elim hw hne]
      exact hes

/-- Witness for C5: the degenerate empty-notes case and a concrete
two-word synchronization. -/
theorem C5_sync_word_count_witness :
    sync_text_to_midi_advanced [] ["la"] = some [] ∧
      ∃ es, sync_text_to_midi_advanced [⟨60, 0, 1⟩] ["la", "la"] = some es ∧
        es.length = (["la", "la"] : List String).length :=
  ⟨(C5_sync_word_count [] ["la"]).1 (Or.inl rfl),
    (C5_sync_word_count [⟨60, 0, 1⟩] ["la", "la"]).2 (by simp)⟩

/-- C6: with non-empty inputs the `i`-th entry starts exactly at
`i * word_interval` with `word_interval = total_midi_duration /
word_count`; hence, when `word_interval > 0`, entry starts are strictly
increasing. -/
theorem C6_sync_uniform_starts (notes : List Note) (words : List String)
    (hn : notes ≠ []) (hw : words ≠ []) :
    ∃ es, sync_text_to_midi_advanced notes words = some es ∧
      (∀ i (hi : i < es.length), (es.get ⟨i, hi⟩).start =
        (i : ℚ) * (total_midi_duration notes / (words.length : ℚ))) ∧
      (0 < total_midi_duration notes / (words.length : ℚ) →
        ∀ i j (hi : i < es.length) (hj : j < es.length), i < j →
          (es.get ⟨i, hi⟩).start < (es.get ⟨j, hj⟩).start) := by
  obtain ⟨es, hes, hlen, hstart⟩ :=
    syncLoop_spec notes hn (total_midi_duration notes / (words.length : ℚ))
      words 0 0 (Nat.zero_le _)
  have hstart' : ∀ i (hi : i < es.length), (es.get ⟨i, hi⟩).start =
      (i : ℚ) * (total_midi_duration notes / (words.length : ℚ)) := by
    intro i hi
    have h := hstart i hi
    simpa using h
  refine ⟨es, ?_, hstart', ?_⟩
  · simp only [sync_text_to_midi_advanced]
    rw [if_neg fun h => h.elim hw hn]
    exact hes
  · intro hpos i j hi hj hij
    rw [hstart' i hi, hstart' j hj]
    exact mul_lt_mul_of_pos_right (by exact_mod_cast hij) hpos

/-- Witness for C6 at the two-note, two-word scenario. -/
theorem C6_sync_uniform_starts_witness :
    ∃ es, sync_text_to_midi_advanced [⟨60, 0, 1⟩, ⟨64, 1, 1⟩] ["la", "la"] = some es ∧
      (∀ i (hi : i < es.length), (es.get ⟨i, hi⟩).start =
        (i : ℚ) * (total_midi_duration [⟨60, 0, 1⟩, ⟨64, 1, 1⟩] /
          ((["la", "la"] : List String).length : ℚ))) ∧
      (0 < total_midi_duration [⟨60, 0, 1⟩, ⟨64, 1, 1⟩] /
          ((["la", "la"] : List String).length : ℚ) →
        ∀ i j (hi : i < es.length) (hj : j < es.length), i < j →
          (es.get ⟨i, hi⟩).start < (es.get ⟨j, hj⟩).start) :=
  C6_sync_uniform_starts [⟨60, 0, 1⟩, ⟨64, 1, 1⟩] ["la", "la"] (by simp) (by simp)

/-- C9: the synchronizer's cursor starts at 0, only increments, and,
when started within `[0, note_count - 1]`, stays within it — so every
`notes[note_index]` subscript is in bounds and the synchronizer is total
(`some`) on non-empty inputs. -/
theorem C9_sync_cursor_in_bounds (notes : List Note) (words : List String)
    (hn : notes ≠ []) :
    (∀ (w : ℚ) (idx : Nat), idx ≤ advanceIndex notes w idx ∧
        (idx ≤ notes.length - 1 → advanceIndex notes w idx ≤ notes.length - 1) ∧
        (idx ≤ notes.length - 1 → advanceIndex notes w idx < notes.length)) ∧
    ∃ es, sync_text_to_midi_advanced notes words = some es := by
  constructor
  · intro w idx
    exact ⟨advanceIndex_ge notes w idx,
      advanceIndex_le_sub_one notes w idx,
      advanceIndex_lt_length notes w idx hn⟩
  · by_cases hw : words = []
    · subst hw
      exact ⟨[], by simp [sync_text_to_midi_advanced]⟩
    · obtain ⟨es, hes, _, _⟩ :=
        syncLoop_spec notes hn (total_midi_duration notes / (words.length : ℚ))
          words 0 0 (Nat.zero_le _)
      refine ⟨es, ?_⟩
      simp only [sync_text_to_midi_advanced]
      rw [if_neg fun h => h.elim hw hn]
      exact hes

/-- Witness for C9 at a concrete one-note input. -/
theorem C9_sync_cursor_in_bounds_witness :
    (∀ (w : ℚ) (idx : Nat), idx ≤ advanceIndex [⟨60, 0, 1⟩] w idx ∧
        (idx ≤ ([⟨60, 0, 1⟩] : List Note).length - 1 →
          advanceIndex [⟨60, 0, 1⟩] w idx ≤ ([⟨60, 0, 1⟩] : List Note).length - 1) ∧
        (idx ≤ ([⟨60, 0, 1⟩] : List Note).length - 1 →
          advanceIndex [⟨60, 0, 1⟩] w idx < ([⟨60, 0, 1⟩] : List Note).length)) ∧
    ∃ es, sync_text_to_midi_advanced [⟨60, 0, 1⟩] ["la"] = some es :=
  C9_sync_cursor_in_bounds [⟨60, 0, 1⟩] ["la"] (by simp)

/-! ## Global time invariant of the extractor -/

/-- A start-bound transfers along equality of start lists. -/
lemma start_le_of_map_start_eq {l l' : List Note}
    (h : l'.map Note.start = l.map Note.start) {c : ℚ}
    (hb : ∀ n ∈ l, n.start ≤ c) : ∀ n ∈ l', n.start ≤ c := by
  intro n hn
  have hmem : n.start ∈ l'.map Note.start := List.mem_map_of_mem _ hn
  rw [h] at hmem
  obtain ⟨m, hm, hms⟩ := List.mem_map.1 hmem
  rw [← hms]
  exact hb m hm

/-- The start-gap chain transfers along equality of start lists. -/
lemma chain'_start_of_map_start_eq {l l' : List Note}
    (h : l'.map Note.start = l.map Note.start)
    (hc : List.Chain' (fun a b => a.start + min_duration ≤ b.start) l) :
    List.Chain' (fun a b => a.start + min_duration ≤ b.start) l' := by
  have h1 : List.Chain' (fun x y : ℚ => x + min_duration ≤ y) (l'.map Note.start) := by
    rw [h]
    exact (List.chain'_map Note.start).2 hc
  exact (List.chain'_map Note.start).1 h1

/-- Closing a note preserves the invariant (starts are untouched). -/
lemma timeInv_close (notes : List Note) (p : Nat) (c ct : ℚ)
    (hb : ∀ n ∈ notes, n.start ≤ c)
    (hc : List.Chain' (fun a b => a.start + min_duration ≤ b.start) notes)
    (hcc : c ≤ ct) :
    (∀ n ∈ closeMostRecent notes p ct, n.start ≤ ct) ∧
      List.Chain' (fun a b => a.start + min_duration ≤ b.start)
        (closeMostRecent notes p ct) := by
  have hmap := closeMostRecent_map_start notes p ct
  exact ⟨fun n hn => le_trans (start_le_of_map_start_eq hmap hb n hn) hcc,
    chain'_start_of_map_start_eq hmap hc⟩

/-- One extractor step preserves the invariant and never rewinds the
clock. -/
lemma step_timeInv (tpb : Int) (s s' : ParseState) (m : MidiMsg)
    (h : step tpb s m = .ok s') (hinv : timeInv s) :
    timeInv s' ∧ s.current_time ≤ s'.current_time := by
  obtain ⟨hb, hc⟩ := hinv
  have hmd : (0 : ℚ) < min_duration := by norm_num [min_duration]
  cases m with
  | set_tempo t =>
    simp only [step, Except.ok.injEq] at h
    rw [← h]
    exact ⟨⟨hb, hc⟩, le_refl _⟩
  | other dt =>
    simp only [step, Except.ok.injEq] at h
    rw [← h]
    exact ⟨⟨hb, hc⟩, le_refl _⟩
  | note_on p v dt =>
    by_cases htpb : tpb = 0
    · simp [step, htpb] at h
    · simp only [step, if_neg htpb] at h
      have hstep : s.current_time + min_duration ≤
          s.current_time + max ((dt : ℚ) / (tpb : ℚ)) min_duration := by
        have := le_max_right ((dt : ℚ) / (tpb : ℚ)) min_duration
        linarith
      by_cases hv : 0 < v
      · rw [if_pos hv] at h
        simp only [Except.ok.injEq] at h
        rw [← h]
        refine ⟨⟨?_, ?_⟩, by linarith⟩
        · intro n hn
          rcases List.mem_append.1 hn with hn | hn
          · exact le_trans (hb n hn) (by linarith)
          · simp only [List.mem_singleton] at hn
            rw [hn]
        · refine List.chain'_append.2 ⟨hc, by simp, ?_⟩
          intro x hx y hy
          simp only [List.head?_cons, Option.mem_def, Option.some.injEq] at hy
          rw [← hy]
          have hxs : x.start ≤ s.current_time := hb x (List.mem_of_mem_getLast? hx)
          show x.start + min_duration ≤ s.current_time + _
          linarith
      · rw [if_neg hv] at h
        simp only [Except.ok.injEq] at h
        rw [← h]
        exact ⟨timeInv_close s.notes p s.current_time _ hb hc (by linarith), by linarith⟩
  | note_off p dt =>
    by_cases htpb : tpb = 0
    · simp [step, htpb] at h
    · simp only [step, if_neg htpb] at h
      have hstep : s.current_time + min_duration ≤
          s.current_time + max ((dt : ℚ) / (tpb : ℚ)) min_duration := by
        have := le_max_right ((dt : ℚ) / (tpb : ℚ)) min_duration
        linarith
      simp only [Except.ok.injEq] at h
      rw [← h]
      exact ⟨timeInv_close s.notes p s.current_time _ hb hc (by linarith), by linarith⟩

/-- The message loop preserves the invariant. -/
lemma processMsgs_timeInv (tpb : Int) :
    ∀ (ms : List MidiMsg) (s s' : ParseState),
      processMsgs tpb s ms = .ok s' → timeInv s → timeInv s' := by
  intro ms
  induction ms with
  | nil =>
    intro s s' h hinv
    simp only [processMsgs, Except.ok.injEq] at h
    rwa [← h]
  | cons m ms ih =>
    intro s s' h hinv
    simp only [processMsgs] at h
    cases hstep : step tpb s m with
    | error e => rw [hstep] at h; exact absurd h (by simp)
    | ok s1 =>
      rw [hstep] at h
      exact ih s1 s' h (step_timeInv tpb s s1 m hstep hinv).1

/-- The track loop preserves the invariant (the state, in particular
`current_time`, is threaded across tracks, never reset). -/
lemma processTracks_timeInv (tpb : Int) :
    ∀ (ts : List (List MidiMsg)) (s s' : ParseState),
      processTracks tpb s ts = .ok s' → timeInv s → timeInv s' := by
  intro ts
  induction ts with
  | nil =>
    intro s s' h hinv
    simp only [processTracks, Except.ok.injEq] at h
    rwa [← h]
  | cons t ts ih =>
    intro s s' h hinv
    simp only [processTracks] at h
    cases htr : processMsgs tpb s t with
    | error e => rw [htr] at h; exact absurd h (by simp)
    | ok s1 =>
      rw [htr] at h
      exact ih s1 s' h (processMsgs_timeInv tpb t s s1 htr hinv)

/-- Quantization leaves all start times in place. -/
lemma normalize_durations_map_start (notes : List Note) :
    (normalize_durations notes).map Note.start = notes.map Note.start := by
  induction notes with
  | nil => simp [normalize_durations]
  | cons n ns ih => simp [normalize_durations]

/-! ## Claim theorem: global monotonicity -/

/-- C10: on every successful parse, the emitted notes' start times are
strictly increasing over the entire output list — each consecutive pair
at least `1/64` beat apart — across track boundaries included, because
`current_time` is threaded through all tracks and never reset. -/
theorem C10_monotone_starts (tracks : List (List MidiMsg)) (tpb : Int)
    (notes : List Note) (tempo : ℚ) (tpb' : Int)
    (h : parse_midi tracks tpb = .ok (notes, tempo, tpb')) :
    List.Chain' (fun a b => a.start + min_duration ≤ b.start) notes ∧
      List.Pairwise (fun a b => a.start < b.start) notes := by
  have hmd : (0 : ℚ) < min_duration := by norm_num [min_duration]
  obtain ⟨s, hs, hnotes⟩ : ∃ s, parse_midi_events tracks tpb = .ok s ∧
      notes = normalize_durations s.notes := by
    unfold parse_midi at h
    cases hev : parse_midi_events tracks tpb with
    | error e => rw [hev] at h; exact absurd h (by simp [Except.map])
    | ok s =>
      rw [hev] at h
      simp only [Except.map, Except.ok.injEq, Prod.mk.injEq] at h
      exact ⟨s, rfl, h.1.symm⟩
  have hinv : timeInv s :=
    processTracks_timeInv tpb tracks ⟨[], 0, 120⟩ s hs
      ⟨fun n hn => absurd hn (List.not_mem_nil n), trivial⟩
  have hmap : notes.map Note.start = s.notes.map Note.start := by
    rw [hnotes]
    exact normalize_durations_map_start s.notes
  have hchain : List.Chain' (fun a b => a.start + min_duration ≤ b.start) notes :=
    chain'_start_of_map_start_eq hmap hinv.2
  refine ⟨hchain, ?_⟩
  haveI : IsTrans Note (fun a b => a.start + min_duration ≤ b.start) :=
    ⟨fun a b c hab hbc => by
      show a.start + min_duration ≤ c.start
      have hab' : a.start + min_duration ≤ b.start := hab
      have hbc' : b.start + min_duration ≤ c.start := hbc
      linarith⟩
  have hp := List.chain'_iff_pairwise.1 hchain
  exact hp.imp fun hab => by linarith

/-- Witness for C10: a two-track input; the second track's note starts
strictly after the first track's, `1/64` beat apart at least. -/
theorem C10_monotone_starts_witness :
    List.Chain' (fun a b => a.start + min_duration ≤ b.start)
        [(⟨60, 1/64, 1/256⟩ : Note), ⟨62, 33/64, 1/256⟩] ∧
      List.Pairwise (fun a b => a.start < b.start)
        [(⟨60, 1/64, 1/256⟩ : Note), ⟨62, 33/64, 1/256⟩] := by
  have hparse : parse_midi [[.note_on 60 64 0], [.note_on 62 64 5]] 10 =
      .ok ([⟨60, 1/64, 1/256⟩, ⟨62, 33/64, 1/256⟩], 120, 10) := by
    have hev : parse_midi_events [[.note_on 60 64 0], [.note_on 62 64 5]] 10 =
        .ok ⟨[⟨60, 1/64, 0⟩, ⟨62, 33/64, 0⟩], 33/64, 120⟩ := by
      have h1 : step 10 ⟨[], 0, 120⟩ (.note_on 60 64 0) =
          .ok ⟨[⟨60, 1/64, 0⟩], 1/64, 120⟩ := by
        norm_num [step, min_duration, max_def]
      have h2 : step 10 ⟨[⟨60, 1/64, 0⟩], 1/64, 120⟩ (.note_on 62 64 5) =
          .ok ⟨[⟨60, 1/64, 0⟩, ⟨62, 33/64, 0⟩], 33/64, 120⟩ := by
        norm_num [step, min_duration, max_def]
      simp only [parse_midi_events, processTracks, processMsgs, h1, h2]
    rw [parse_midi, hev]
    have hq : quantizeDuration 0 = 1/256 := by
      norm_num [quantizeDuration, pyMinAbs, valid_durations, pyMinStep,
        abs_of_nonneg, abs_of_nonpos]
    simp only [Except.map, normalize_durations, List.map_cons, List.map_nil, hq]
  exact C10_monotone_starts [[.note_on 60 64 0], [.note_on 62 64 5]] 10
    [⟨60, 1/64, 1/256⟩, ⟨62, 33/64, 1/256⟩] 120 10 hparse

end LyricsMidi
